import Mathlib

/-!
Verification of `mne/datasets/eegbci/eegbci.py` (the EEGBCI dataset fetcher).

The development shallowly embeds the module's `load_data` and `standardize`
functions.  Pure Python string manipulation is translated to executable Lean
functions on `String` / `List Char`; the stateful parts of `load_data`
(filesystem, configuration store, network) are embedded as explicit state
passing over a `St` record together with an event trace.  The collaborators
that live outside this file's source (`_get_path`, `_do_path_update` from
`mne.datasets.utils`, and the `pooch` download manager) are modelled from the
specification's contracts; each such definition carries a doc comment saying
so.  Character classes of the Python regular expression are modelled over the
ASCII range (`isPyDigit`, `Char.toUpper`), which covers every string the
module manipulates.
-/

namespace EEGBCI

/-! ### Relative file path formatting

Source: `file_part = f'S{subject:03d}/S{subject:03d}R{run:02d}.edf'`. -/

/-- Python's `format(n, '0wd')` for a nonnegative integer `n`: the decimal
digits of `n`, left-padded with `'0'` to width `w`. -/
def format0d (w : Nat) (n : Nat) : String :=
  let s := toString n
  String.mk (List.replicate (w - s.length) '0') ++ s

/-- The relative file path computed in the body of `load_data`'s loop:
`f'S{subject:03d}/S{subject:03d}R{run:02d}.edf'`. -/
def filePart (subject run : Nat) : String :=
  "S" ++ format0d 3 subject ++ "/S" ++ format0d 3 subject ++ "R" ++
    format0d 2 run ++ ".edf"

/-- Decimal digit character of `n % 10` (spec-side helper, independent of
`toString`). -/
def digitChar (n : Nat) : Char := Char.ofNat (48 + n % 10)

/-- Spec-side three-digit zero-padded rendering of `n < 1000`: hundreds,
tens, units digits. -/
def pad3 (n : Nat) : String :=
  String.mk [digitChar (n / 100), digitChar (n / 10), digitChar n]

/-- Spec-side two-digit zero-padded rendering of `n < 100`: tens and units
digits. -/
def pad2 (n : Nat) : String :=
  String.mk [digitChar (n / 10), digitChar n]

/-- The spec's naming scheme `S{subject:03d}/S{subject:03d}R{run:02d}.edf`,
written with the independent digit-wise padding (to be compared against the
source's `filePart`). -/
def specRelPath (subject run : Nat) : String :=
  "S" ++ pad3 subject ++ "/S" ++ pad3 subject ++ "R" ++ pad2 run ++ ".edf"

/-! ### `os.path.join` (POSIX, two arguments) -/

/-- Whether a string starts with the character `c`. -/
def strStartsWith (s : String) (c : Char) : Bool :=
  match s.data with
  | [] => false
  | x :: _ => x = c

/-- Whether a string ends with the character `c`. -/
def strEndsWith (s : String) (c : Char) : Bool :=
  s.data.getLast? = some c

/-- Split a character list at `'/'` separators (used to count the path
segments of a relative path). -/
def splitSlash : List Char → List (List Char)
  | [] => [[]]
  | c :: r =>
    if c = '/' then [] :: splitSlash r
    else
      match splitSlash r with
      | [] => [[c]]
      | h :: t => (c :: h) :: t

/-- POSIX `os.path.join(a, b)`: `b` if `b` is absolute; otherwise `a ++ b`
when `a` is empty or already ends with a separator, else `a ++ "/" ++ b`. -/
def pjoin (a b : String) : String :=
  if strStartsWith b '/' then b
  else if a = "" ∨ strEndsWith a '/' then a ++ b
  else a ++ "/" ++ b

/-! ### The base-URL pattern

Source: `pattern = r'(?:https?://.*)(files)/(eegmmidb)/(\d+\.\d+\.\d+)/?'`
matched with `re.compile(pattern).match(base_url)` (anchored at the start
only).  The matcher below specializes Python's backtracking semantics to this
fixed pattern: `https?` is deterministic here (the character after the
optional `s` must be `:`), `.*` is greedy over non-newline characters with
backtracking, and each `\d+` is effectively deterministic because the
character required after it (`.`) is never a digit. -/

/-- Consume the literal character sequence `seg` from the front of `cs`. -/
def dropSeg : List Char → List Char → Option (List Char)
  | [], cs => some cs
  | _ :: _, [] => none
  | p :: ps, c :: cs => if p = c then dropSeg ps cs else none

/-- The `https?://` part of the pattern, anchored at the start. -/
def parseScheme (cs : List Char) : Option (List Char) :=
  match dropSeg "http".data cs with
  | none => none
  | some rest =>
    match rest with
    | [] => none
    | c :: rest2 =>
      if c = 's' then
        match dropSeg "://".data rest2 with
        | some r => some r
        | none => none
      else
        match dropSeg "://".data (c :: rest2) with
        | some r => some r
        | none => none

/-- Python's `\d` character class for a `str` pattern: the Unicode
decimal-digit characters (general category Nd, 660 codepoints, Unicode
14.0.0 as bundled with the CPython `re` module), given as closed codepoint
ranges.  ASCII `0`-`9` is the first range. -/
def isPyDigit (c : Char) : Bool :=
  let n := c.toNat
  (0x30 <= n && n <= 0x39) ||
    (0x660 <= n && n <= 0x669) ||
    (0x6f0 <= n && n <= 0x6f9) ||
    (0x7c0 <= n && n <= 0x7c9) ||
    (0x966 <= n && n <= 0x96f) ||
    (0x9e6 <= n && n <= 0x9ef) ||
    (0xa66 <= n && n <= 0xa6f) ||
    (0xae6 <= n && n <= 0xaef) ||
    (0xb66 <= n && n <= 0xb6f) ||
    (0xbe6 <= n && n <= 0xbef) ||
    (0xc66 <= n && n <= 0xc6f) ||
    (0xce6 <= n && n <= 0xcef) ||
    (0xd66 <= n && n <= 0xd6f) ||
    (0xde6 <= n && n <= 0xdef) ||
    (0xe50 <= n && n <= 0xe59) ||
    (0xed0 <= n && n <= 0xed9) ||
    (0xf20 <= n && n <= 0xf29) ||
    (0x1040 <= n && n <= 0x1049) ||
    (0x1090 <= n && n <= 0x1099) ||
    (0x17e0 <= n && n <= 0x17e9) ||
    (0x1810 <= n && n <= 0x1819) ||
    (0x1946 <= n && n <= 0x194f) ||
    (0x19d0 <= n && n <= 0x19d9) ||
    (0x1a80 <= n && n <= 0x1a89) ||
    (0x1a90 <= n && n <= 0x1a99) ||
    (0x1b50 <= n && n <= 0x1b59) ||
    (0x1bb0 <= n && n <= 0x1bb9) ||
    (0x1c40 <= n && n <= 0x1c49) ||
    (0x1c50 <= n && n <= 0x1c59) ||
    (0xa620 <= n && n <= 0xa629) ||
    (0xa8d0 <= n && n <= 0xa8d9) ||
    (0xa900 <= n && n <= 0xa909) ||
    (0xa9d0 <= n && n <= 0xa9d9) ||
    (0xa9f0 <= n && n <= 0xa9f9) ||
    (0xaa50 <= n && n <= 0xaa59) ||
    (0xabf0 <= n && n <= 0xabf9) ||
    (0xff10 <= n && n <= 0xff19) ||
    (0x104a0 <= n && n <= 0x104a9) ||
    (0x10d30 <= n && n <= 0x10d39) ||
    (0x11066 <= n && n <= 0x1106f) ||
    (0x110f0 <= n && n <= 0x110f9) ||
    (0x11136 <= n && n <= 0x1113f) ||
    (0x111d0 <= n && n <= 0x111d9) ||
    (0x112f0 <= n && n <= 0x112f9) ||
    (0x11450 <= n && n <= 0x11459) ||
    (0x114d0 <= n && n <= 0x114d9) ||
    (0x11650 <= n && n <= 0x11659) ||
    (0x116c0 <= n && n <= 0x116c9) ||
    (0x11730 <= n && n <= 0x11739) ||
    (0x118e0 <= n && n <= 0x118e9) ||
    (0x11950 <= n && n <= 0x11959) ||
    (0x11c50 <= n && n <= 0x11c59) ||
    (0x11d50 <= n && n <= 0x11d59) ||
    (0x11da0 <= n && n <= 0x11da9) ||
    (0x16a60 <= n && n <= 0x16a69) ||
    (0x16ac0 <= n && n <= 0x16ac9) ||
    (0x16b50 <= n && n <= 0x16b59) ||
    (0x1d7ce <= n && n <= 0x1d7ff) ||
    (0x1e140 <= n && n <= 0x1e149) ||
    (0x1e2f0 <= n && n <= 0x1e2f9) ||
    (0x1e950 <= n && n <= 0x1e959) ||
    (0x1fbf0 <= n && n <= 0x1fbf9)

/-- The `(\d+\.\d+\.\d+)` group: three maximal nonempty runs of
`\d`-characters (Unicode decimal digits, `isPyDigit`) separated by literal
dots; returns the captured version string. -/
def parseVersion (cs : List Char) : Option String :=
  let d1 := cs.takeWhile isPyDigit
  let r1 := cs.dropWhile isPyDigit
  if d1.isEmpty then none else
  match r1 with
  | [] => none
  | c1 :: r2 =>
    if c1 = '.' then
      let d2 := r2.takeWhile isPyDigit
      let r3 := r2.dropWhile isPyDigit
      if d2.isEmpty then none else
      match r3 with
      | [] => none
      | c2 :: r4 =>
        if c2 = '.' then
          let d3 := r4.takeWhile isPyDigit
          if d3.isEmpty then none
          else some (String.mk (d1 ++ '.' :: (d2 ++ '.' :: d3)))
        else none
    else none

/-- The tail of the pattern, `(files)/(eegmmidb)/(\d+\.\d+\.\d+)/?`, applied
at a fixed position.  The trailing `/?` and the absence of an end anchor make
anything after the version irrelevant. -/
def tailMatch (cs : List Char) : Option String :=
  match dropSeg "files/eegmmidb/".data cs with
  | some rest => parseVersion rest
  | none => none

/-- The greedy `.*` followed by `tailMatch`: try to consume one more
non-newline character first; on failure of the longer attempts, match the
tail at the current position.  Returns the version captured at the last
feasible position, as Python's greedy `.*` does. -/
def starScan : List Char → Option String
  | [] => tailMatch []
  | c :: rest =>
    if c = '\n' then tailMatch (c :: rest)
    else
      match starScan rest with
      | some v => some v
      | none => tailMatch (c :: rest)

/-- `re.compile(pattern).match(base_url)`, returning `match.groups()` —
`('files', 'eegmmidb', version)` — on success. -/
def matchEEGMI (url : String) : Option (String × String × String) :=
  match parseScheme url.data with
  | none => none
  | some rest =>
    match starScan rest with
    | none => none
    | some v => some ("files", "eegmmidb", v)

/-- `EEGMI_URL = 'https://physionet.org/files/eegmmidb/1.0.0/'`. -/
def EEGMI_URL : String := "https://physionet.org/files/eegmmidb/1.0.0/"

/-- The local cache directory of `load_data`:
`base_path = op.join(path, folder, *match.groups())` with
`folder = 'MNE-eegbci-data'`. -/
def basePathOf (path : String) (g : String × String × String) : String :=
  pjoin (pjoin (pjoin (pjoin path "MNE-eegbci-data") g.1) g.2.1) g.2.2

/-- The cache directory as a function of the resolved storage path and the
base URL: `none` exactly when the URL fails validation. -/
def cacheDir (path url : String) : Option String :=
  (matchEEGMI url).map (basePathOf path)

/-! ### `standardize`

Source: strip periods, upper-case, rewrite a final `Z` to `z`, rewrite a
leading `FP` to `Fp`; collect `rename[name] = std_name` in a dict. -/

/-- Python `name.strip('.')`: remove leading and trailing `'.'` characters. -/
def stripDots (s : String) : String :=
  String.mk (((s.data.dropWhile (fun c => c = '.')).reverse.dropWhile
    (fun c => c = '.')).reverse)

/-- Whether a string starts with the two characters `FP`
(Python `std_name.startswith('FP')`). -/
def startsWithFP (s : String) : Bool :=
  match s.data with
  | 'F' :: 'P' :: _ => true
  | _ => false

/-- The per-name transformation inside `standardize`'s loop: strip periods,
upper-case (ASCII, via `Char.toUpper`, matching Python `.upper()` on the
channel names in play), rewrite a final `Z` to `z`
(`std_name[:-1] + 'z'`), rewrite a leading `FP` to `Fp`
(`'Fp' + std_name[2:]`). -/
def stdName (name : String) : String :=
  let s1 := stripDots name
  let s2 := String.mk (s1.data.map Char.toUpper)
  let s3 := if strEndsWith s2 'Z' then String.mk (s2.data.dropLast ++ ['z'])
    else s2
  if startsWithFP s3 then "Fp" ++ String.mk (s3.data.drop 2) else s3

/-- Python dict assignment `d[k] = v` on an insertion-ordered association
list: overwrite in place if the key is present, else append. -/
def dictInsert (d : List (String × String)) (k v : String) :
    List (String × String) :=
  if d.any (fun p => p.1 = k) then
    d.map (fun p => if p.1 = k then (k, v) else p)
  else d ++ [(k, v)]

/-- `standardize`: the rename mapping built from the channel-name list (the
subsequent `raw.rename_channels(rename)` call is the caller-side apply step,
outside this function's computation of the mapping). -/
def standardize (chNames : List String) : List (String × String) :=
  chNames.foldl (fun d name => dictInsert d name (stdName name)) []

/-! ### The stateful part of `load_data`

The filesystem is an association list from absolute path to a validity bit
(`true` iff the file's content matches its registry checksum), the
configuration store holds the optional value of `MNE_DATASETS_EEGBCI_PATH`,
and a trace records the externally observable events in order. -/

/-- Observable events of one `load_data` call. -/
inductive Event where
  | createFetcher
  | remove (path : String)
  | transfer (part : String)
  | pathUpdate
  deriving DecidableEq

/-- Filesystem, configuration store, and event trace. -/
structure St where
  fs : List (String × Bool)
  config : Option String
  trace : List Event
  deriving DecidableEq

/-- First-match association-list lookup (a path occurs at most once in the
states we build; lookup ignores shadowed entries). -/
def lookupFS : List (String × Bool) → String → Option Bool
  | [], _ => none
  | (k, v) :: rest, key => if k = key then some v else lookupFS rest key

/-- Record a file with validity bit `v` (shadowing any older entry). -/
def insertFS (fs : List (String × Bool)) (k : String) (v : Bool) :
    List (String × Bool) :=
  (k, v) :: fs

/-- `os.remove`: drop every entry for the path. -/
def removeFS (fs : List (String × Bool)) (k : String) : List (String × Bool) :=
  fs.filter (fun e => e.1 != k)

/-- `os.path.isfile`. -/
def isfile (fs : List (String × Bool)) (p : String) : Bool :=
  (lookupFS fs p).isSome

/-- Modelled from the spec: `_get_path` (section 4.1 Path Resolver) is
imported from `mne.datasets.utils`, which is not under src/.  "If
`explicit_path` given, normalize and return it.  Else look up `config_key` in
process configuration/environment; if absent, compute a default under the
user's home directory."  Normalization is modelled as the identity and the
default as the literal `~/mne_data`; resolution is read-only. -/
def getPath (pathArg : Option String) (config : Option String) : String :=
  match pathArg with
  | some p => p
  | none => config.getD "~/mne_data"

/-- Modelled from the spec: `_do_path_update` (the side effect of section 4.1)
is imported from `mne.datasets.utils`, which is not under src/.  "If
`update_path` requested (explicitly true, or interactively confirmed when
unset), persist the resolved path under `config_key`."  The interactive
confirmation is the oracle `prompt`. -/
def doPathUpdate (path : String) (updatePath : Option Bool) (prompt : Bool)
    (config : Option String) : Option String :=
  match updatePath with
  | some true => some path
  | some false => config
  | none => if prompt then some path else config

/-- Modelled from the spec: `fetcher.fetch` of the `pooch` download manager
(section 6 remote transfer collaborator), which is not under src/.  "Skipping
already-downloaded valid files" and "re-fetching an already-valid file is a
no-op (checked before transfer)"; otherwise the file is transferred (bounded
retries and checksum verification folded into the success oracle `netOk`),
recorded valid on success; on final failure the error propagates.  Every
transfer attempt appends a `transfer` event. -/
def fetchOne (netOk : String → Bool) (basePath : String) (st : St)
    (part : String) : St × Option String :=
  let dest := pjoin basePath part
  match lookupFS st.fs dest with
  | some true => (st, some dest)
  | _ =>
    if netOk part then
      ({ st with fs := insertFS st.fs dest true,
                 trace := st.trace ++ [Event.transfer part] }, some dest)
    else
      ({ st with trace := st.trace ++ [Event.transfer part] }, none)

/-- One iteration of `load_data`'s `for run in runs` loop: compute
`file_part` and `destination`, delete the destination when
`force_update and op.isfile(destination)`, fetch, and on success re-invoke
`_do_path_update(path, update_path, config_key, name)`. -/
def processRun (netOk : String → Bool) (basePath path : String)
    (updatePath : Option Bool) (prompt : Bool) (forceUpdate : Bool)
    (subject : Nat) (st : St) (run : Nat) : St × Option String :=
  let part := filePart subject run
  let destination := pjoin basePath part
  let st1 : St :=
    if forceUpdate && isfile st.fs destination then
      { st with fs := removeFS st.fs destination,
                trace := st.trace ++ [Event.remove destination] }
    else st
  match fetchOne netOk basePath st1 part with
  | (st2, some p) =>
    ({ st2 with config := doPathUpdate path updatePath prompt st2.config,
                trace := st2.trace ++ [Event.pathUpdate] }, some p)
  | (st2, none) => (st2, none)

/-- The message of the `ValueError` raised on a malformed `base_url`. -/
def badUrlMsg : String :=
  "base_url does not match the expected EEGMI folder structure. Please notify MNE-Python developers."

/-- The loop of `load_data` over the run list, accumulating `data_paths`;
a failed fetch aborts the whole call. -/
def fetchLoop (netOk : String → Bool) (basePath path : String)
    (updatePath : Option Bool) (prompt : Bool) (forceUpdate : Bool)
    (subject : Nat) :
    List Nat → St → List String → St × Except String (List String)
  | [], st, acc => (st, Except.ok acc)
  | run :: rest, st, acc =>
    match processRun netOk basePath path updatePath prompt forceUpdate subject
        st run with
    | (st', some p) =>
      fetchLoop netOk basePath path updatePath prompt forceUpdate subject rest
        st' (acc ++ [p])
    | (st', none) => (st', Except.error ("failed to fetch " ++ filePart subject run))

/-- The `runs` argument: a bare integer or a list
(`if not hasattr(runs, '__iter__'): runs = [runs]`). -/
inductive RunsArg where
  | single (run : Nat)
  | runList (runs : List Nat)

/-- The wrapping of a non-iterable `runs` argument into a one-element list. -/
def normalizeRuns : RunsArg → List Nat
  | .single r => [r]
  | .runList rs => rs

/-- `load_data(subject, runs, path, force_update, update_path, base_url)`:
normalize `runs`, resolve the storage path, validate `base_url` (raising
`ValueError` with no further effect on mismatch), build `base_path`, create
the fetcher (registry loading is folded into fetcher creation, which has no
observable effect beyond its event), then run the fetch loop. -/
def loadData (netOk : String → Bool) (subject : Nat) (runs : RunsArg)
    (pathArg : Option String) (forceUpdate : Bool) (updatePath : Option Bool)
    (prompt : Bool) (baseUrl : String) (st : St) :
    St × Except String (List String) :=
  let runsL := normalizeRuns runs
  let path := getPath pathArg st.config
  match matchEEGMI baseUrl with
  | none => (st, Except.error badUrlMsg)
  | some g =>
    let basePath := basePathOf path g
    let st1 : St := { st with trace := st.trace ++ [Event.createFetcher] }
    fetchLoop netOk basePath path updatePath prompt forceUpdate subject runsL
      st1 []

/-- Whether an event is a network transfer attempt. -/
def isTransferEv : Event → Bool
  | .transfer _ => true
  | _ => false

/-- Number of network transfer attempts in a trace. -/
def countTransfers (t : List Event) : Nat := t.countP isTransferEv

/-- Whether an event is a path-persistence invocation. -/
def isPathUpdateEv : Event → Bool
  | .pathUpdate => true
  | _ => false

/-- Number of path-persistence invocations in a trace. -/
def countPathUpdates (t : List Event) : Nat := t.countP isPathUpdateEv

/-! ### Spec-side predicates for the URL pattern -/

/-- A nonempty string of decimal digits in the sense of Python's `\d`
(Unicode category Nd, via `isPyDigit`). -/
def allDigitsStr (s : String) : Prop :=
  s ≠ "" ∧ ∀ c ∈ s.data, isPyDigit c

/-- The claim's characterization of the accepted base URLs, read literally:
scheme, then any characters, then `files/eegmmidb/`, then
`digits.digits.digits`, then anything (the optional trailing slash is part of
the arbitrary tail). -/
def specAccepts (url : String) : Prop :=
  ∃ sch mid d1 d2 d3 rest : String,
    (sch = "http://" ∨ sch = "https://") ∧
    allDigitsStr d1 ∧ allDigitsStr d2 ∧ allDigitsStr d3 ∧
    url = sch ++ mid ++ "files/eegmmidb/" ++ d1 ++ "." ++ d2 ++ "." ++ d3 ++ rest

/-- The characterization with the middle part restricted to non-newline
characters (Python's `.` does not match a newline). -/
def specAcceptsNoNL (url : String) : Prop :=
  ∃ sch mid d1 d2 d3 rest : String,
    (sch = "http://" ∨ sch = "https://") ∧ (∀ c ∈ mid.data, c ≠ '\n') ∧
    allDigitsStr d1 ∧ allDigitsStr d2 ∧ allDigitsStr d3 ∧
    url = sch ++ mid ++ "files/eegmmidb/" ++ d1 ++ "." ++ d2 ++ "." ++ d3 ++ rest

/-- A version string of the shape `digits.digits.digits`. -/
def versionShape (v : String) : Prop :=
  ∃ d1 d2 d3 : String,
    allDigitsStr d1 ∧ allDigitsStr d2 ∧ allDigitsStr d3 ∧
    v = d1 ++ "." ++ d2 ++ "." ++ d3

/-! ### Helper lemmas: strings and lists -/

theorem str_ext {a b : String} (h : a.data = b.data) : a = b := by
  cases a; cases b; exact congrArg String.mk h

theorem data_append (a b : String) : (a ++ b).data = a.data ++ b.data := rfl

theorem data_mk (l : List Char) : (String.mk l).data = l := rfl

theorem mk_ne_empty_iff (l : List Char) : String.mk l ≠ "" ↔ l ≠ [] := by
  constructor
  · intro h hl
    exact h (congrArg String.mk hl)
  · intro h hl
    exact h (congrArg String.data hl)

theorem dropSeg_eq_some_iff (seg cs rest : List Char) :
    dropSeg seg cs = some rest ↔ cs = seg ++ rest := by
  induction seg generalizing cs with
  | nil =>
    simp [dropSeg, eq_comm]
  | cons p ps ih =>
    cases cs with
    | nil => simp [dropSeg]
    | cons c cs' =>
      simp only [dropSeg, List.cons_append]
      by_cases h : p = c
      · subst h
        simp [ih]
      · simp only [if_neg h]
        constructor
        · intro hx; exact absurd hx (by simp)
        · intro hx
          injection hx with h1 _
          exact absurd h1.symm h

theorem takeWhile_all_append {p : Char → Bool} {xs : List Char} (y : Char)
    (ys : List Char) (hx : ∀ x ∈ xs, p x = true) (hy : p y = false) :
    (xs ++ y :: ys).takeWhile p = xs ∧ (xs ++ y :: ys).dropWhile p = y :: ys := by
  induction xs with
  | nil => simp [List.takeWhile, List.dropWhile, hy]
  | cons x xs' ih =>
    have hpx : p x = true := hx x (by simp)
    have := ih (fun a ha => hx a (by simp [ha]))
    simp [List.takeWhile, List.dropWhile, hpx, this.1, this.2]

theorem takeWhile_cons_of_pos {p : Char → Bool} {x : Char} (xs : List Char)
    (hx : p x = true) : (x :: xs).takeWhile p = x :: xs.takeWhile p := by
  simp [List.takeWhile, hx]

/-! ### Helper lemmas: the URL matcher -/

theorem parseScheme_eq_some_iff (cs rest : List Char) :
    parseScheme cs = some rest ↔
      cs = "http://".data ++ rest ∨ cs = "https://".data ++ rest := by
  constructor
  · intro h
    simp only [parseScheme] at h
    cases hd : dropSeg "http".data cs with
    | none => rw [hd] at h; simp at h
    | some r =>
      rw [hd] at h
      have hcs : cs = "http".data ++ r := (dropSeg_eq_some_iff _ _ _).mp hd
      cases r with
      | nil => simp at h
      | cons c r2 =>
        simp only at h
        by_cases hc : c = 's'
        · rw [if_pos hc] at h
          cases hd2 : dropSeg "://".data r2 with
          | none => rw [hd2] at h; simp at h
          | some r3 =>
            rw [hd2] at h
            have h2 : r2 = "://".data ++ r3 := (dropSeg_eq_some_iff _ _ _).mp hd2
            right
            subst hc
            simp only [Option.some_inj] at h
            subst h
            rw [hcs, h2]
            rfl
        · rw [if_neg hc] at h
          cases hd2 : dropSeg "://".data (c :: r2) with
          | none => rw [hd2] at h; simp at h
          | some r3 =>
            rw [hd2] at h
            have h2 : c :: r2 = "://".data ++ r3 := (dropSeg_eq_some_iff _ _ _).mp hd2
            left
            simp only [Option.some_inj] at h
            subst h
            rw [hcs, h2]
            rfl
  · intro h
    rcases h with h | h
    · subst h; rfl
    · subst h; rfl

/-- A nonempty all-digit run of characters. -/
def digitRun (l : List Char) : Prop := l ≠ [] ∧ ∀ c ∈ l, isPyDigit c = true

theorem parseVersion_eq_some (cs : List Char) (v : String)
    (h : parseVersion cs = some v) :
    ∃ d1 d2 d3 rest : List Char, digitRun d1 ∧ digitRun d2 ∧ digitRun d3 ∧
      cs = d1 ++ '.' :: (d2 ++ '.' :: (d3 ++ rest)) ∧
      v = String.mk (d1 ++ '.' :: (d2 ++ '.' :: d3)) := by
  simp only [parseVersion] at h
  by_cases h1 : (cs.takeWhile isPyDigit).isEmpty
  · rw [if_pos h1] at h; exact absurd h (by simp)
  rw [if_neg h1] at h
  cases hr1 : cs.dropWhile isPyDigit with
  | nil => rw [hr1] at h; simp at h
  | cons c1 r2 =>
    rw [hr1] at h
    simp only at h
    by_cases hc1 : c1 = '.'
    case neg => rw [if_neg hc1] at h; exact absurd h (by simp)
    rw [if_pos hc1] at h
    subst hc1
    by_cases h2 : (r2.takeWhile isPyDigit).isEmpty
    · rw [if_pos h2] at h; exact absurd h (by simp)
    rw [if_neg h2] at h
    cases hr3 : r2.dropWhile isPyDigit with
    | nil => rw [hr3] at h; simp at h
    | cons c2 r4 =>
      rw [hr3] at h
      simp only at h
      by_cases hc2 : c2 = '.'
      case neg => rw [if_neg hc2] at h; exact absurd h (by simp)
      rw [if_pos hc2] at h
      subst hc2
      by_cases h3 : (r4.takeWhile isPyDigit).isEmpty
      · rw [if_pos h3] at h; exact absurd h (by simp)
      rw [if_neg h3] at h
      simp only [Option.some_inj] at h
      refine ⟨cs.takeWhile isPyDigit, r2.takeWhile isPyDigit,
        r4.takeWhile isPyDigit, r4.dropWhile isPyDigit,
        ⟨by simpa using h1, fun c hc => List.mem_takeWhile_imp hc⟩,
        ⟨by simpa using h2, fun c hc => List.mem_takeWhile_imp hc⟩,
        ⟨by simpa using h3, fun c hc => List.mem_takeWhile_imp hc⟩, ?_, h.symm⟩
      conv_lhs => rw [← List.takeWhile_append_dropWhile (p := isPyDigit) (l := cs)]
      rw [hr1]
      congr 1
      congr 1
      conv_lhs => rw [← List.takeWhile_append_dropWhile (p := isPyDigit) (l := r2)]
      rw [hr3]
      congr 2
      exact (List.takeWhile_append_dropWhile _ _).symm

theorem parseVersion_isSome (d1 d2 d3 rest : List Char) (hd1 : digitRun d1)
    (hd2 : digitRun d2) (hd3 : digitRun d3) :
    (parseVersion (d1 ++ '.' :: (d2 ++ '.' :: (d3 ++ rest)))).isSome := by
  have hdot : isPyDigit '.' = false := by decide
  obtain ⟨tw1, dw1⟩ := takeWhile_all_append (p := isPyDigit) '.'
    (d2 ++ '.' :: (d3 ++ rest)) hd1.2 hdot
  obtain ⟨tw2, dw2⟩ := takeWhile_all_append (p := isPyDigit) '.'
    (d3 ++ rest) hd2.2 hdot
  obtain ⟨c3, d3', hd3'⟩ : ∃ c3 d3', d3 = c3 :: d3' := by
    cases d3 with
    | nil => exact absurd rfl hd3.1
    | cons c3 d3' => exact ⟨c3, d3', rfl⟩
  have hc3 : isPyDigit c3 = true := hd3.2 c3 (by simp [hd3'])
  have h1 : ¬(((d1 ++ '.' :: (d2 ++ '.' :: (d3 ++ rest))).takeWhile
      isPyDigit).isEmpty = true) := by
    rw [tw1]
    rcases hd1 with ⟨hne, _⟩
    cases d1 with
    | nil => exact absurd rfl hne
    | cons a l => simp [List.isEmpty]
  have h2 : ¬(((d2 ++ '.' :: (d3 ++ rest)).takeWhile isPyDigit).isEmpty
      = true) := by
    rw [tw2]
    rcases hd2 with ⟨hne, _⟩
    cases d2 with
    | nil => exact absurd rfl hne
    | cons a l => simp [List.isEmpty]
  have h3 : ¬(((d3 ++ rest).takeWhile isPyDigit).isEmpty = true) := by
    rw [hd3', List.cons_append, takeWhile_cons_of_pos _ hc3]
    simp [List.isEmpty]
  simp only [parseVersion, tw1, dw1, tw2, dw2]
  simp [List.isEmpty_iff, hd1.1, hd2.1, h3]

theorem tailMatch_eq_some (cs : List Char) (v : String)
    (h : tailMatch cs = some v) :
    ∃ d1 d2 d3 rest : List Char, digitRun d1 ∧ digitRun d2 ∧ digitRun d3 ∧
      cs = "files/eegmmidb/".data ++ (d1 ++ '.' :: (d2 ++ '.' :: (d3 ++ rest))) ∧
      v = String.mk (d1 ++ '.' :: (d2 ++ '.' :: d3)) := by
  simp only [tailMatch] at h
  cases hd : dropSeg "files/eegmmidb/".data cs with
  | none => rw [hd] at h; simp at h
  | some r =>
    rw [hd] at h
    simp only at h
    obtain ⟨d1, d2, d3, rest, h1, h2, h3, hr, hv⟩ := parseVersion_eq_some r v h
    exact ⟨d1, d2, d3, rest, h1, h2, h3,
      by rw [(dropSeg_eq_some_iff _ _ _).mp hd, hr], hv⟩

theorem tailMatch_isSome (d1 d2 d3 rest : List Char) (hd1 : digitRun d1)
    (hd2 : digitRun d2) (hd3 : digitRun d3) :
    (tailMatch ("files/eegmmidb/".data ++
      (d1 ++ '.' :: (d2 ++ '.' :: (d3 ++ rest))))).isSome := by
  have hd : dropSeg "files/eegmmidb/".data ("files/eegmmidb/".data ++
      (d1 ++ '.' :: (d2 ++ '.' :: (d3 ++ rest)))) =
      some (d1 ++ '.' :: (d2 ++ '.' :: (d3 ++ rest))) :=
    (dropSeg_eq_some_iff _ _ _).mpr rfl
  simp only [tailMatch, hd]
  exact parseVersion_isSome d1 d2 d3 rest hd1 hd2 hd3

theorem starScan_eq_some (cs : List Char) (v : String)
    (h : starScan cs = some v) :
    ∃ mid cs' : List Char, cs = mid ++ cs' ∧ (∀ c ∈ mid, c ≠ '\n') ∧
      tailMatch cs' = some v := by
  induction cs with
  | nil => exact ⟨[], [], rfl, by simp, h⟩
  | cons c rest ih =>
    simp only [starScan] at h
    by_cases hc : c = '\n'
    · rw [if_pos hc] at h
      exact ⟨[], c :: rest, rfl, by simp, h⟩
    · rw [if_neg hc] at h
      cases hs : starScan rest with
      | some v' =>
        rw [hs] at h
        simp only [Option.some_inj] at h
        obtain ⟨mid, cs', hcs, hnl, ht⟩ := ih (h ▸ hs)
        refine ⟨c :: mid, cs', by rw [List.cons_append, hcs], ?_, ht⟩
        intro x hx
        rcases List.mem_cons.mp hx with hx | hx
        · rw [hx]; exact hc
        · exact hnl x hx
      | none =>
        rw [hs] at h
        simp only at h
        exact ⟨[], c :: rest, rfl, by simp, h⟩

theorem starScan_isSome (mid cs' : List Char) (hnl : ∀ c ∈ mid, c ≠ '\n')
    (ht : (tailMatch cs').isSome) : (starScan (mid ++ cs')).isSome := by
  induction mid with
  | nil =>
    rw [List.nil_append]
    cases cs' with
    | nil => simpa [starScan] using ht
    | cons c rest =>
      simp only [starScan]
      by_cases hc : c = '\n'
      · rw [if_pos hc]; exact ht
      · rw [if_neg hc]
        cases hs : starScan rest with
        | some v => simp
        | none => simpa using ht
  | cons c mid' ih =>
    rw [List.cons_append]
    simp only [starScan]
    have hc : c ≠ '\n' := hnl c (by simp)
    rw [if_neg hc]
    cases hs : starScan (mid' ++ cs') with
    | some v => simp
    | none =>
      have := ih (fun x hx => hnl x (by simp [hx]))
      rw [hs] at this
      simp at this

theorem matchEEGMI_groups (url : String) (g : String × String × String)
    (h : matchEEGMI url = some g) :
    g.1 = "files" ∧ g.2.1 = "eegmmidb" ∧ versionShape g.2.2 := by
  simp only [matchEEGMI] at h
  cases hp : parseScheme url.data with
  | none => rw [hp] at h; simp at h
  | some rest =>
    rw [hp] at h
    simp only at h
    cases hs : starScan rest with
    | none => rw [hs] at h; simp at h
    | some v =>
      rw [hs] at h
      simp only [Option.some_inj] at h
      obtain ⟨mid, cs', _, _, ht⟩ := starScan_eq_some rest v hs
      obtain ⟨d1, d2, d3, rest', h1, h2, h3, _, hv⟩ := tailMatch_eq_some cs' v ht
      subst h
      refine ⟨rfl, rfl, String.mk d1, String.mk d2, String.mk d3,
        ⟨(mk_ne_empty_iff d1).mpr h1.1, h1.2⟩,
        ⟨(mk_ne_empty_iff d2).mpr h2.1, h2.2⟩,
        ⟨(mk_ne_empty_iff d3).mpr h3.1, h3.2⟩, ?_⟩
      rw [hv]
      apply str_ext
      simp [data_append, data_mk]

theorem matchEEGMI_isSome_iff (url : String) :
    (matchEEGMI url).isSome = true ↔ specAcceptsNoNL url := by
  constructor
  · intro h
    cases hm : matchEEGMI url with
    | none => rw [hm] at h; simp at h
    | some g =>
      clear h
      simp only [matchEEGMI] at hm
      cases hp : parseScheme url.data with
      | none => rw [hp] at hm; simp at hm
      | some rest =>
        rw [hp] at hm
        simp only at hm
        cases hs : starScan rest with
        | none => rw [hs] at hm; simp at hm
        | some v =>
          obtain ⟨mid, cs', hrest, hnl, ht⟩ := starScan_eq_some rest v hs
          obtain ⟨d1, d2, d3, rest', h1, h2, h3, hcs', _⟩ :=
            tailMatch_eq_some cs' v ht
          cases (parseScheme_eq_some_iff url.data rest).mp hp with
          | inl hsch =>
            refine ⟨"http://", String.mk mid, String.mk d1, String.mk d2,
              String.mk d3, String.mk rest', Or.inl rfl,
              by simpa [data_mk] using hnl,
              ⟨(mk_ne_empty_iff d1).mpr h1.1, h1.2⟩,
              ⟨(mk_ne_empty_iff d2).mpr h2.1, h2.2⟩,
              ⟨(mk_ne_empty_iff d3).mpr h3.1, h3.2⟩, ?_⟩
            apply str_ext
            rw [hsch, hrest, hcs']
            simp [data_append, data_mk]
          | inr hsch =>
            refine ⟨"https://", String.mk mid, String.mk d1, String.mk d2,
              String.mk d3, String.mk rest', Or.inr rfl,
              by simpa [data_mk] using hnl,
              ⟨(mk_ne_empty_iff d1).mpr h1.1, h1.2⟩,
              ⟨(mk_ne_empty_iff d2).mpr h2.1, h2.2⟩,
              ⟨(mk_ne_empty_iff d3).mpr h3.1, h3.2⟩, ?_⟩
            apply str_ext
            rw [hsch, hrest, hcs']
            simp [data_append, data_mk]
  · rintro ⟨sch, mid, d1, d2, d3, rest, hsch, hnl, h1, h2, h3, hurl⟩
    have hdata : url.data = sch.data ++ (mid.data ++
        ("files/eegmmidb/".data ++
          (d1.data ++ '.' :: (d2.data ++ '.' :: (d3.data ++ rest.data))))) := by
      rw [hurl]
      simp [data_append]
    have hp : parseScheme url.data = some (mid.data ++
        ("files/eegmmidb/".data ++
          (d1.data ++ '.' :: (d2.data ++ '.' :: (d3.data ++ rest.data))))) := by
      apply (parseScheme_eq_some_iff _ _).mpr
      cases hsch with
      | inl h => left; rw [hdata, h]
      | inr h => right; rw [hdata, h]
    have hd1 : digitRun d1.data := ⟨fun h => h1.1 (str_ext h), h1.2⟩
    have hd2 : digitRun d2.data := ⟨fun h => h2.1 (str_ext h), h2.2⟩
    have hd3 : digitRun d3.data := ⟨fun h => h3.1 (str_ext h), h3.2⟩
    have ht := tailMatch_isSome d1.data d2.data d3.data rest.data hd1 hd2 hd3
    have hs := starScan_isSome mid.data ("files/eegmmidb/".data ++
      (d1.data ++ '.' :: (d2.data ++ '.' :: (d3.data ++ rest.data))))
      hnl ht
    simp only [matchEEGMI, hp]
    cases hss : starScan (mid.data ++ ("files/eegmmidb/".data ++
        (d1.data ++ '.' :: (d2.data ++ '.' :: (d3.data ++ rest.data))))) with
    | none => rw [hss] at hs; simp at hs
    | some v => simp

/-! ### Helper lemmas: filesystem and the fetch loop -/

theorem lookupFS_insert_self (fs : List (String × Bool)) (k : String)
    (v : Bool) : lookupFS (insertFS fs k v) k = some v := by
  simp [insertFS, lookupFS]

theorem lookupFS_insert_of_ne (fs : List (String × Bool)) (k k' : String)
    (v : Bool) (h : k ≠ k') : lookupFS (insertFS fs k v) k' = lookupFS fs k' := by
  simp [insertFS, lookupFS, h]

theorem lookupFS_remove_self (fs : List (String × Bool)) (k : String) :
    lookupFS (removeFS fs k) k = none := by
  induction fs with
  | nil => rfl
  | cons e rest ih =>
    obtain ⟨a, b⟩ := e
    simp only [removeFS] at ih ⊢
    rw [List.filter_cons]
    by_cases h : a = k
    · simpa [h] using ih
    · simpa [h, lookupFS, bne_iff_ne] using ih

theorem lookupFS_insert_mono (fs : List (String × Bool)) (k key : String)
    (h : lookupFS fs key = some true) :
    lookupFS (insertFS fs k true) key = some true := by
  by_cases hk : k = key
  · subst hk; exact lookupFS_insert_self fs k true
  · rw [lookupFS_insert_of_ne fs k key true hk]; exact h

theorem fetchOne_skip (netOk : String → Bool) (basePath : String) (st : St)
    (part : String) (h : lookupFS st.fs (pjoin basePath part) = some true) :
    fetchOne netOk basePath st part = (st, some (pjoin basePath part)) := by
  simp only [fetchOne, h]

theorem fetchOne_fetch (netOk : String → Bool) (basePath : String) (st : St)
    (part : String) (h : lookupFS st.fs (pjoin basePath part) ≠ some true)
    (hn : netOk part = true) :
    fetchOne netOk basePath st part =
      ({ st with fs := insertFS st.fs (pjoin basePath part) true,
                 trace := st.trace ++ [Event.transfer part] },
       some (pjoin basePath part)) := by
  simp only [fetchOne]
  cases hl : lookupFS st.fs (pjoin basePath part) with
  | none => simp [hn]
  | some b =>
    cases b with
    | true => exact absurd hl h
    | false => simp [hn]

theorem fetchOne_fail (netOk : String → Bool) (basePath : String) (st : St)
    (part : String) (h : lookupFS st.fs (pjoin basePath part) ≠ some true)
    (hn : netOk part = false) :
    fetchOne netOk basePath st part =
      ({ st with trace := st.trace ++ [Event.transfer part] }, none) := by
  simp only [fetchOne]
  cases hl : lookupFS st.fs (pjoin basePath part) with
  | none => simp [hn]
  | some b =>
    cases b with
    | true => exact absurd hl h
    | false => simp [hn]

theorem processRun_skip (netOk : String → Bool) (basePath path : String)
    (up : Option Bool) (pr : Bool) (subject : Nat) (st : St) (run : Nat)
    (h : lookupFS st.fs (pjoin basePath (filePart subject run)) = some true) :
    processRun netOk basePath path up pr false subject st run =
      ({ st with config := doPathUpdate path up pr st.config,
                 trace := st.trace ++ [Event.pathUpdate] },
       some (pjoin basePath (filePart subject run))) := by
  simp [processRun, fetchOne_skip netOk basePath st (filePart subject run) h]

theorem processRun_fetch (netOk : String → Bool) (basePath path : String)
    (up : Option Bool) (pr : Bool) (subject : Nat) (st : St) (run : Nat)
    (h : lookupFS st.fs (pjoin basePath (filePart subject run)) ≠ some true)
    (hn : netOk (filePart subject run) = true) :
    processRun netOk basePath path up pr false subject st run =
      ({ st with
           fs := insertFS st.fs (pjoin basePath (filePart subject run)) true,
           config := doPathUpdate path up pr st.config,
           trace := st.trace ++ [Event.transfer (filePart subject run)]
             ++ [Event.pathUpdate] },
       some (pjoin basePath (filePart subject run))) := by
  simp [processRun, fetchOne_fetch netOk basePath st (filePart subject run) h hn]

theorem processRun_fail (netOk : String → Bool) (basePath path : String)
    (up : Option Bool) (pr : Bool) (subject : Nat) (st : St) (run : Nat)
    (h : lookupFS st.fs (pjoin basePath (filePart subject run)) ≠ some true)
    (hn : netOk (filePart subject run) = false) :
    processRun netOk basePath path up pr false subject st run =
      ({ st with trace := st.trace ++ [Event.transfer (filePart subject run)] },
       none) := by
  simp [processRun, fetchOne_fail netOk basePath st (filePart subject run) h hn]

theorem doPathUpdate_cases (path : String) (up : Option Bool) (pr : Bool)
    (c : Option String) :
    doPathUpdate path up pr c = c ∨ doPathUpdate path up pr c = some path := by
  rcases up with _ | b
  · simp only [doPathUpdate]
    by_cases h : pr
    · right; rw [if_pos h]
    · left; rw [if_neg h]
  · cases b
    · left; rfl
    · right; rfl

theorem countTransfers_append (t1 t2 : List Event) :
    countTransfers (t1 ++ t2) = countTransfers t1 + countTransfers t2 :=
  List.countP_append _ _ _

theorem countPathUpdates_append (t1 t2 : List Event) :
    countPathUpdates (t1 ++ t2) = countPathUpdates t1 + countPathUpdates t2 :=
  List.countP_append _ _ _

theorem processRun_ok_anatomy (netOk : String → Bool) (bp path : String)
    (up : Option Bool) (pr : Bool) (fu : Bool) (subject : Nat) (st : St)
    (run : Nat) (st2 : St) (p : String)
    (h : processRun netOk bp path up pr fu subject st run = (st2, some p)) :
    p = pjoin bp (filePart subject run) ∧
    st2.config = doPathUpdate path up pr st.config ∧
    ∃ mid : List Event, st2.trace = st.trace ++ mid ++ [Event.pathUpdate] ∧
      ∀ e ∈ mid, isPathUpdateEv e = false := by
  simp only [processRun] at h
  by_cases hif : (fu && isfile st.fs (pjoin bp (filePart subject run))) = true
  case pos =>
    rw [if_pos hif] at h
    set st1 : St := { st with
      fs := removeFS st.fs (pjoin bp (filePart subject run)),
      trace := st.trace ++ [Event.remove (pjoin bp (filePart subject run))] }
      with hst1
    cases hl : lookupFS st1.fs (pjoin bp (filePart subject run)) with
    | some b =>
      cases b with
      | true =>
        rw [fetchOne_skip netOk bp st1 (filePart subject run) hl] at h
        simp only at h
        obtain ⟨h1, h2⟩ := Prod.mk.injEq .. ▸ h
        refine ⟨(Option.some_inj.mp h2).symm, ?_, ?_⟩
        · rw [← h1]
        · exact ⟨[Event.remove (pjoin bp (filePart subject run))],
            by rw [← h1], by intro e he; simp at he; rw [he]; rfl⟩
      | false =>
        cases hn : netOk (filePart subject run) with
        | true =>
          rw [fetchOne_fetch netOk bp st1 (filePart subject run)
            (by rw [hl]; simp) hn] at h
          simp only at h
          obtain ⟨h1, h2⟩ := Prod.mk.injEq .. ▸ h
          refine ⟨(Option.some_inj.mp h2).symm, by rw [← h1], ?_⟩
          refine ⟨[Event.remove (pjoin bp (filePart subject run)),
            Event.transfer (filePart subject run)], ?_, ?_⟩
          · rw [← h1]; simp
          · intro e he
            rcases List.mem_cons.mp he with he | he
            · rw [he]; rfl
            · simp at he; rw [he]; rfl
        | false =>
          rw [fetchOne_fail netOk bp st1 (filePart subject run)
            (by rw [hl]; simp) hn] at h
          simp only at h
          exact absurd (Prod.mk.injEq .. ▸ h).2 (by simp)
    | none =>
      cases hn : netOk (filePart subject run) with
      | true =>
        rw [fetchOne_fetch netOk bp st1 (filePart subject run)
          (by rw [hl]; simp) hn] at h
        simp only at h
        obtain ⟨h1, h2⟩ := Prod.mk.injEq .. ▸ h
        refine ⟨(Option.some_inj.mp h2).symm, by rw [← h1], ?_⟩
        refine ⟨[Event.remove (pjoin bp (filePart subject run)),
          Event.transfer (filePart subject run)], ?_, ?_⟩
        · rw [← h1]; simp
        · intro e he
          rcases List.mem_cons.mp he with he | he
          · rw [he]; rfl
          · simp at he; rw [he]; rfl
      | false =>
        rw [fetchOne_fail netOk bp st1 (filePart subject run)
          (by rw [hl]; simp) hn] at h
        simp only at h
        exact absurd (Prod.mk.injEq .. ▸ h).2 (by simp)
  case neg =>
    rw [if_neg hif] at h
    cases hl : lookupFS st.fs (pjoin bp (filePart subject run)) with
    | some b =>
      cases b with
      | true =>
        rw [fetchOne_skip netOk bp st (filePart subject run) hl] at h
        simp only at h
        obtain ⟨h1, h2⟩ := Prod.mk.injEq .. ▸ h
        refine ⟨(Option.some_inj.mp h2).symm, by rw [← h1], ?_⟩
        exact ⟨[], by rw [← h1]; simp, by intro e he; simp at he⟩
      | false =>
        cases hn : netOk (filePart subject run) with
        | true =>
          rw [fetchOne_fetch netOk bp st (filePart subject run)
            (by rw [hl]; simp) hn] at h
          simp only at h
          obtain ⟨h1, h2⟩ := Prod.mk.injEq .. ▸ h
          refine ⟨(Option.some_inj.mp h2).symm, by rw [← h1], ?_⟩
          exact ⟨[Event.transfer (filePart subject run)], by rw [← h1],
            by intro e he; simp at he; rw [he]; rfl⟩
        | false =>
          rw [fetchOne_fail netOk bp st (filePart subject run)
            (by rw [hl]; simp) hn] at h
          simp only at h
          exact absurd (Prod.mk.injEq .. ▸ h).2 (by simp)
    | none =>
      cases hn : netOk (filePart subject run) with
      | true =>
        rw [fetchOne_fetch netOk bp st (filePart subject run)
          (by rw [hl]; simp) hn] at h
        simp only at h
        obtain ⟨h1, h2⟩ := Prod.mk.injEq .. ▸ h
        refine ⟨(Option.some_inj.mp h2).symm, by rw [← h1], ?_⟩
        exact ⟨[Event.transfer (filePart subject run)], by rw [← h1],
          by intro e he; simp at he; rw [he]; rfl⟩
      | false =>
        rw [fetchOne_fail netOk bp st (filePart subject run)
          (by rw [hl]; simp) hn] at h
        simp only at h
        exact absurd (Prod.mk.injEq .. ▸ h).2 (by simp)

theorem processRun_snd_eq (netOk : String → Bool) (bp path : String)
    (up : Option Bool) (pr : Bool) (fu : Bool) (subject : Nat) (st : St)
    (run : Nat) (hn : netOk (filePart subject run) = true) :
    (processRun netOk bp path up pr fu subject st run).2 =
      some (pjoin bp (filePart subject run)) := by
  simp only [processRun]
  generalize (if (fu && isfile st.fs (pjoin bp (filePart subject run))) = true
    then { st with fs := removeFS st.fs (pjoin bp (filePart subject run)),
                   trace := st.trace ++
                     [Event.remove (pjoin bp (filePart subject run))] }
    else st) = st1
  by_cases hl : lookupFS st1.fs (pjoin bp (filePart subject run)) = some true
  · rw [fetchOne_skip netOk bp st1 (filePart subject run) hl]
  · rw [fetchOne_fetch netOk bp st1 (filePart subject run) hl hn]

theorem fetchOne_config (netOk : String → Bool) (bp : String) (st : St)
    (part : String) : ((fetchOne netOk bp st part).1).config = st.config := by
  simp only [fetchOne]
  cases hl : lookupFS st.fs (pjoin bp part) with
  | none =>
    by_cases hn : netOk part = true
    · rw [if_pos hn]
    · rw [if_neg hn]
  | some b =>
    cases b with
    | true => rfl
    | false =>
      by_cases hn : netOk part = true
      · rw [if_pos hn]
      · rw [if_neg hn]

theorem processRun_config (netOk : String → Bool) (bp path : String)
    (up : Option Bool) (pr : Bool) (fu : Bool) (subject : Nat) (st : St)
    (run : Nat) :
    ((processRun netOk bp path up pr fu subject st run).1).config = st.config ∨
    ((processRun netOk bp path up pr fu subject st run).1).config = some path := by
  simp only [processRun]
  have hc1 : ∀ st1 : St, st1.config = st.config →
      ((match fetchOne netOk bp st1 (filePart subject run) with
        | (st2, some p) =>
          ({ st2 with config := doPathUpdate path up pr st2.config,
                      trace := st2.trace ++ [Event.pathUpdate] }, some p)
        | (st2, none) => (st2, none)).1).config = st.config ∨
      ((match fetchOne netOk bp st1 (filePart subject run) with
        | (st2, some p) =>
          ({ st2 with config := doPathUpdate path up pr st2.config,
                      trace := st2.trace ++ [Event.pathUpdate] }, some p)
        | (st2, none) => (st2, none)).1).config = some path := by
    intro st1 h1
    cases hf : fetchOne netOk bp st1 (filePart subject run) with
    | mk st2 op =>
      have hc2 : st2.config = st.config := by
        have := fetchOne_config netOk bp st1 (filePart subject run)
        rw [hf] at this
        exact this.trans h1
      cases op with
      | some p =>
        simp only
        rw [hc2]
        exact (doPathUpdate_cases path up pr st.config).imp id id
      | none =>
        simp only
        exact Or.inl hc2
  by_cases hif : (fu && isfile st.fs (pjoin bp (filePart subject run))) = true
  · rw [if_pos hif]
    exact hc1 _ rfl
  · rw [if_neg hif]
    exact hc1 _ rfl

theorem fetchLoop_ok_shape (netOk : String → Bool) (bp path : String)
    (up : Option Bool) (pr : Bool) (fu : Bool) (subject : Nat) :
    ∀ (runs : List Nat) (st : St) (acc : List String) (st' : St)
      (ps : List String),
    fetchLoop netOk bp path up pr fu subject runs st acc = (st', Except.ok ps) →
    ps = acc ++ runs.map (fun r => pjoin bp (filePart subject r)) := by
  intro runs
  induction runs with
  | nil =>
    intro st acc st' ps h
    simp only [fetchLoop] at h
    obtain ⟨-, h2⟩ := Prod.mk.injEq .. ▸ h
    simpa using (Except.ok.inj h2).symm
  | cons run rest ih =>
    intro st acc st' ps h
    simp only [fetchLoop] at h
    cases hp : processRun netOk bp path up pr fu subject st run with
    | mk st2 op =>
      rw [hp] at h
      cases op with
      | some p =>
        simp only at h
        obtain ⟨hpd, -, -⟩ :=
          processRun_ok_anatomy netOk bp path up pr fu subject st run st2 p hp
        rw [ih st2 (acc ++ [p]) st' ps h, hpd]
        simp
      | none =>
        simp only at h
        exact absurd (Prod.mk.injEq .. ▸ h).2 (by simp)

theorem fetchLoop_snd_ok (netOk : String → Bool) (bp path : String)
    (up : Option Bool) (pr : Bool) (fu : Bool) (subject : Nat) :
    ∀ (runs : List Nat) (st : St) (acc : List String),
    (∀ r ∈ runs, netOk (filePart subject r) = true) →
    (fetchLoop netOk bp path up pr fu subject runs st acc).2 =
      Except.ok (acc ++ runs.map (fun r => pjoin bp (filePart subject r))) := by
  intro runs
  induction runs with
  | nil =>
    intro st acc _
    simp [fetchLoop]
  | cons run rest ih =>
    intro st acc hall
    simp only [fetchLoop]
    cases hp : processRun netOk bp path up pr fu subject st run with
    | mk st2 op =>
      have hsnd := processRun_snd_eq netOk bp path up pr fu subject st run
        (hall run (by simp))
      rw [hp] at hsnd
      simp only at hsnd
      subst hsnd
      simp only
      rw [ih st2 (acc ++ [pjoin bp (filePart subject run)])
        (fun r hr => hall r (by simp [hr]))]
      simp

theorem fetchLoop_fs_mono (netOk : String → Bool) (bp path : String)
    (up : Option Bool) (pr : Bool) (subject : Nat) :
    ∀ (runs : List Nat) (st : St) (acc : List String) (key : String),
    lookupFS st.fs key = some true →
    lookupFS ((fetchLoop netOk bp path up pr false subject runs st acc).1).fs
      key = some true := by
  intro runs
  induction runs with
  | nil =>
    intro st acc key h
    simpa [fetchLoop] using h
  | cons run rest ih =>
    intro st acc key h
    simp only [fetchLoop]
    by_cases hl : lookupFS st.fs (pjoin bp (filePart subject run)) = some true
    · rw [processRun_skip netOk bp path up pr subject st run hl]
      exact ih _ _ _ h
    · cases hn : netOk (filePart subject run) with
      | true =>
        rw [processRun_fetch netOk bp path up pr subject st run hl hn]
        exact ih _ _ _ (lookupFS_insert_mono st.fs _ key h)
      | false =>
        rw [processRun_fail netOk bp path up pr subject st run hl hn]
        exact h

theorem fetchLoop_post_valid (netOk : String → Bool) (bp path : String)
    (up : Option Bool) (pr : Bool) (subject : Nat) :
    ∀ (runs : List Nat) (st : St) (acc : List String) (st' : St)
      (ps : List String),
    fetchLoop netOk bp path up pr false subject runs st acc =
      (st', Except.ok ps) →
    ∀ r ∈ runs, lookupFS st'.fs (pjoin bp (filePart subject r)) = some true := by
  intro runs
  induction runs with
  | nil =>
    intro st acc st' ps _ r hr
    simp at hr
  | cons run rest ih =>
    intro st acc st' ps h r hr
    simp only [fetchLoop] at h
    by_cases hl : lookupFS st.fs (pjoin bp (filePart subject run)) = some true
    · rw [processRun_skip netOk bp path up pr subject st run hl] at h
      simp only at h
      rcases List.mem_cons.mp hr with hr | hr
      · subst hr
        have hm := fetchLoop_fs_mono netOk bp path up pr subject rest
          { st with config := doPathUpdate path up pr st.config,
                    trace := st.trace ++ [Event.pathUpdate] }
          (acc ++ [pjoin bp (filePart subject r)])
          (pjoin bp (filePart subject r)) hl
        rw [h] at hm
        exact hm
      · exact ih _ _ _ _ h r hr
    · cases hn : netOk (filePart subject run) with
      | true =>
        rw [processRun_fetch netOk bp path up pr subject st run hl hn] at h
        simp only at h
        rcases List.mem_cons.mp hr with hr | hr
        · subst hr
          have hm := fetchLoop_fs_mono netOk bp path up pr subject rest
            { st with
                fs := insertFS st.fs (pjoin bp (filePart subject r)) true,
                config := doPathUpdate path up pr st.config,
                trace := st.trace ++ [Event.transfer (filePart subject r)]
                  ++ [Event.pathUpdate] }
            (acc ++ [pjoin bp (filePart subject r)])
            (pjoin bp (filePart subject r))
            (lookupFS_insert_self st.fs (pjoin bp (filePart subject r)) true)
          rw [h] at hm
          exact hm
        · exact ih _ _ _ _ h r hr
      | false =>
        rw [processRun_fail netOk bp path up pr subject st run hl hn] at h
        simp only at h
        exact absurd (Prod.mk.injEq .. ▸ h).2 (by simp)

theorem fetchLoop_skip_all (netOk : String → Bool) (bp path : String)
    (up : Option Bool) (pr : Bool) (subject : Nat) :
    ∀ (runs : List Nat) (st : St) (acc : List String),
    (∀ r ∈ runs, lookupFS st.fs (pjoin bp (filePart subject r)) = some true) →
    (fetchLoop netOk bp path up pr false subject runs st acc).2 =
      Except.ok (acc ++ runs.map (fun r => pjoin bp (filePart subject r))) ∧
    ((fetchLoop netOk bp path up pr false subject runs st acc).1).fs = st.fs ∧
    countTransfers
        ((fetchLoop netOk bp path up pr false subject runs st acc).1).trace =
      countTransfers st.trace := by
  intro runs
  induction runs with
  | nil =>
    intro st acc _
    exact ⟨by simp [fetchLoop], rfl, rfl⟩
  | cons run rest ih =>
    intro st acc hall
    have hl := hall run (by simp)
    simp only [fetchLoop]
    rw [processRun_skip netOk bp path up pr subject st run hl]
    simp only
    obtain ⟨h1, h2, h3⟩ := ih
      { st with config := doPathUpdate path up pr st.config,
                trace := st.trace ++ [Event.pathUpdate] }
      (acc ++ [pjoin bp (filePart subject run)])
      (fun r hr => hall r (by simp [hr]))
    refine ⟨by rw [h1]; simp, h2, ?_⟩
    rw [h3]
    simp only [countTransfers_append]
    rfl

theorem fetchLoop_config (netOk : String → Bool) (bp path : String)
    (up : Option Bool) (pr : Bool) (fu : Bool) (subject : Nat) :
    ∀ (runs : List Nat) (st : St) (acc : List String),
    ((fetchLoop netOk bp path up pr fu subject runs st acc).1).config =
      st.config ∨
    ((fetchLoop netOk bp path up pr fu subject runs st acc).1).config =
      some path := by
  intro runs
  induction runs with
  | nil =>
    intro st acc
    exact Or.inl rfl
  | cons run rest ih =>
    intro st acc
    simp only [fetchLoop]
    cases hp : processRun netOk bp path up pr fu subject st run with
    | mk st2 op =>
      have hc := processRun_config netOk bp path up pr fu subject st run
      rw [hp] at hc
      simp only at hc
      cases op with
      | some p =>
        simp only
        rcases ih st2 (acc ++ [p]) with h | h
        · rw [h]; exact hc
        · exact Or.inr h
      | none =>
        simp only
        exact hc

theorem fetchLoop_countPU (netOk : String → Bool) (bp path : String)
    (up : Option Bool) (pr : Bool) (fu : Bool) (subject : Nat) :
    ∀ (runs : List Nat) (st : St) (acc : List String) (st' : St)
      (ps : List String),
    fetchLoop netOk bp path up pr fu subject runs st acc = (st', Except.ok ps) →
    countPathUpdates st'.trace = countPathUpdates st.trace + runs.length := by
  intro runs
  induction runs with
  | nil =>
    intro st acc st' ps h
    simp only [fetchLoop] at h
    obtain ⟨h1, -⟩ := Prod.mk.injEq .. ▸ h
    rw [← h1]
    simp
  | cons run rest ih =>
    intro st acc st' ps h
    simp only [fetchLoop] at h
    cases hp : processRun netOk bp path up pr fu subject st run with
    | mk st2 op =>
      rw [hp] at h
      cases op with
      | some p =>
        simp only at h
        obtain ⟨-, -, mid, hmid, hnpu⟩ :=
          processRun_ok_anatomy netOk bp path up pr fu subject st run st2 p hp
        have hz : countPathUpdates mid = 0 :=
          List.countP_eq_zero.mpr (by
            intro e he
            simp [hnpu e he])
        have := ih st2 (acc ++ [p]) st' ps h
        rw [this, hmid]
        simp only [countPathUpdates_append, hz]
        have hone : countPathUpdates [Event.pathUpdate] = 1 := rfl
        rw [hone]
        simp only [List.length_cons]
        omega
      | none =>
        simp only at h
        exact absurd (Prod.mk.injEq .. ▸ h).2 (by simp)

/-! ### Helper lemmas: the rename dictionary -/

theorem dictInsert_hasKey (d : List (String × String)) (k v : String) :
    (dictInsert d k v).any (fun p => p.1 = k) = true := by
  simp only [dictInsert]
  by_cases h : d.any (fun p => p.1 = k) = true
  · rw [if_pos h]
    obtain ⟨p, hp, hpk⟩ := List.any_eq_true.mp h
    refine List.any_eq_true.mpr ⟨(k, v), List.mem_map.mpr ⟨p, hp, ?_⟩, by simp⟩
    simp only [decide_eq_true_eq] at hpk
    rw [if_pos hpk]
  · rw [if_neg h]
    exact List.any_eq_true.mpr ⟨(k, v), by simp, by simp⟩

theorem dictInsert_keeps (d : List (String × String)) (k v n : String)
    (h : d.any (fun p => p.1 = n) = true) :
    (dictInsert d k v).any (fun p => p.1 = n) = true := by
  simp only [dictInsert]
  obtain ⟨p, hp, hpn⟩ := List.any_eq_true.mp h
  simp only [decide_eq_true_eq] at hpn
  by_cases hc : d.any (fun p => p.1 = k) = true
  · rw [if_pos hc]
    by_cases hpk : p.1 = k
    · refine List.any_eq_true.mpr ⟨(k, v), List.mem_map.mpr ⟨p, hp, ?_⟩, ?_⟩
      · rw [if_pos hpk]
      · simp [← hpn, hpk]
    · refine List.any_eq_true.mpr ⟨p, List.mem_map.mpr ⟨p, hp, ?_⟩, by simp [hpn]⟩
      rw [if_neg hpk]
  · rw [if_neg hc]
    exact List.any_eq_true.mpr ⟨p, by simp [hp], by simp [hpn]⟩

theorem dictInsert_vals (d : List (String × String)) (k : String)
    (h : ∀ p ∈ d, p.2 = stdName p.1) :
    ∀ p ∈ dictInsert d k (stdName k), p.2 = stdName p.1 := by
  intro p hp
  simp only [dictInsert] at hp
  by_cases hc : d.any (fun q => q.1 = k) = true
  · rw [if_pos hc] at hp
    obtain ⟨q, hq, hqp⟩ := List.mem_map.mp hp
    by_cases hqk : q.1 = k
    · rw [if_pos hqk] at hqp
      rw [← hqp]
    · rw [if_neg hqk] at hqp
      rw [← hqp]
      exact h q hq
  · rw [if_neg hc] at hp
    rcases List.mem_append.mp hp with hp | hp
    · exact h p hp
    · simp only [List.mem_singleton] at hp
      rw [hp]

theorem standardize_fold_keys (names : List String)
    (d : List (String × String)) (n : String)
    (h : d.any (fun p => p.1 = n) = true ∨ n ∈ names) :
    ((names.foldl (fun d name => dictInsert d name (stdName name)) d).any
      (fun p => p.1 = n)) = true := by
  induction names generalizing d with
  | nil =>
    rcases h with h | h
    · exact h
    · simp at h
  | cons m rest ih =>
    simp only [List.foldl_cons]
    apply ih
    rcases h with h | h
    · exact Or.inl (dictInsert_keeps d m (stdName m) n h)
    · rcases List.mem_cons.mp h with h | h
      · subst h
        exact Or.inl (dictInsert_hasKey d n (stdName n))
      · exact Or.inr h

theorem standardize_fold_vals (names : List String)
    (d : List (String × String)) (h : ∀ p ∈ d, p.2 = stdName p.1) :
    ∀ p ∈ names.foldl (fun d name => dictInsert d name (stdName name)) d,
      p.2 = stdName p.1 := by
  induction names generalizing d with
  | nil => exact h
  | cons m rest ih =>
    simp only [List.foldl_cons]
    exact ih (dictInsert d m (stdName m)) (dictInsert_vals d m h)

theorem loadData_unfold_some (netOk : String → Bool) (subject : Nat)
    (runs : RunsArg) (pathArg : Option String) (fu : Bool) (up : Option Bool)
    (pr : Bool) (url : String) (st : St) (g : String × String × String)
    (h : matchEEGMI url = some g) :
    loadData netOk subject runs pathArg fu up pr url st =
      fetchLoop netOk (basePathOf (getPath pathArg st.config) g)
        (getPath pathArg st.config) up pr fu subject (normalizeRuns runs)
        { st with trace := st.trace ++ [Event.createFetcher] } [] := by
  simp only [loadData, h]

/-! ### Claim theorems -/

/-- C1: for every subject in 1..109 and run in 1..14 the relative file path
computed by `load_data` equals the zero-padded scheme
`S{subject:03d}/S{subject:03d}R{run:02d}.edf` (digit-wise independent
rendering `specRelPath`); in particular subject 1, run 4 yields
`S001/S001R04.edf`. -/
theorem relative_path_scheme :
    (∀ subject run : Nat, 1 ≤ subject → subject ≤ 109 → 1 ≤ run → run ≤ 14 →
      filePart subject run = specRelPath subject run) ∧
    filePart 1 4 = "S001/S001R04.edf" := by
  constructor
  · have h : ∀ s < 110, ∀ r < 15, filePart s r = specRelPath s r := by decide
    intro subject run _ h2 _ h4
    exact h subject (by omega) run (by omega)
  · decide

theorem relative_path_scheme_witness :
    filePart 1 4 = specRelPath 1 4 :=
  relative_path_scheme.1 1 4 (by decide) (by decide) (by decide) (by decide)

/-- C2: for every `base_url` rejected by the structural pattern, `load_data`
raises the `ValueError` and returns with the state completely unchanged —
in particular no fetcher is created, nothing is transferred, deleted or
persisted (the trace gains no event). -/
theorem invalid_base_url_fails_fast (netOk : String → Bool) (subject : Nat)
    (runs : RunsArg) (pathArg : Option String) (fu : Bool) (up : Option Bool)
    (pr : Bool) (url : String) (st : St) (h : matchEEGMI url = none) :
    loadData netOk subject runs pathArg fu up pr url st =
      (st, Except.error badUrlMsg) := by
  simp only [loadData, h]

theorem invalid_base_url_fails_fast_witness :
    matchEEGMI "ftp://physionet.org/files/eegmmidb/1.0.0/" = none ∧
    loadData (fun _ => true) 1 (RunsArg.single 4) (some "root") false none
      false "ftp://physionet.org/files/eegmmidb/1.0.0/" ⟨[], none, []⟩ =
      (⟨[], none, []⟩, Except.error badUrlMsg) :=
  ⟨by decide, invalid_base_url_fails_fast (fun _ => true) 1 (RunsArg.single 4)
    (some "root") false none false "ftp://physionet.org/files/eegmmidb/1.0.0/"
    ⟨[], none, []⟩ (by decide)⟩

/-- C3: `standardize` (a pure function, hence deterministic) produces a
rename mapping whose keys include every original channel name, whose every
value is the four-step transformation `stdName` (strip periods, upper-case,
final `Z` to `z`, leading `FP` to `Fp`, in that order) of its key, and the
spec's examples hold. -/
theorem standardize_mapping :
    (∀ names : List String, ∀ n ∈ names,
      (standardize names).any (fun p => p.1 = n) = true) ∧
    (∀ names : List String, ∀ p ∈ standardize names, p.2 = stdName p.1) ∧
    stdName "Fp1." = "Fp1" ∧ stdName "cz" = "Cz" ∧ stdName "t7" = "T7" := by
  refine ⟨?_, ?_, by decide, by decide, by decide⟩
  · intro names n hn
    exact standardize_fold_keys names [] n (Or.inr hn)
  · intro names p hp
    exact standardize_fold_vals names [] (by intro q hq; simp at hq) p hp

theorem standardize_mapping_witness :
    ("cz" ∈ ["Fp1.", "cz"]) ∧
    (standardize ["Fp1.", "cz"]).any (fun p => p.1 = "cz") = true :=
  ⟨by decide, standardize_mapping.1 ["Fp1.", "cz"] "cz" (by decide)⟩

/-- C10 counterexample: the claim reads "followed by any characters", but
Python's `.` does not match a newline, so the code rejects a base URL whose
middle part is a newline even though it fits the claimed shape. -/
theorem url_pattern_newline_counterexample :
    specAccepts "http://\nfiles/eegmmidb/1.0.0/" ∧
    matchEEGMI "http://\nfiles/eegmmidb/1.0.0/" = none := by
  constructor
  · exact ⟨"http://", "\n", "1", "0", "0", "/", Or.inl rfl,
      ⟨by decide, by decide⟩, ⟨by decide, by decide⟩, ⟨by decide, by decide⟩,
      by decide⟩
  · decide

/-- C10 (amended): the validator accepts exactly the strings that begin with
`http://` or `https://`, followed by any characters other than newline, then
the literal `files/eegmmidb/`, then `digits.digits.digits` where a digit is
any character of Python's `\d` class (Unicode decimal digits, `isPyDigit`),
with anything (including an optional slash) permitted afterwards — matched
from the start only, not anchored at the end, dataset name fixed to
`eegmmidb`. -/
theorem url_pattern_characterization (url : String) :
    (matchEEGMI url).isSome = true ↔ specAcceptsNoNL url :=
  matchEEGMI_isSome_iff url

theorem url_pattern_characterization_witness :
    specAcceptsNoNL EEGMI_URL :=
  (url_pattern_characterization EEGMI_URL).mp (by decide)

/-- The non-ASCII side of the digit class: a version written with
Arabic-Indic digits (U+0663, U+0661, U+0664) is accepted by the matcher,
as it is by CPython's `re` on this pattern. -/
theorem matchEEGMI_accepts_unicode_digits :
    (matchEEGMI "http://x/files/eegmmidb/٣.١.٤/").isSome = true := by decide

/-- C4 counterexample: under the cache root `root`, the cache directory for
the default URL is `root/MNE-eegbci-data/files/eegmmidb/1.0.0` — four
appended path segments — and it cannot be written as cache root plus three
segments `sub/eegmmidb/1.0.0` with `sub` slash-free. -/
theorem cache_dir_three_segments_counterexample :
    cacheDir "root" EEGMI_URL =
      some "root/MNE-eegbci-data/files/eegmmidb/1.0.0" ∧
    ((splitSlash "MNE-eegbci-data/files/eegmmidb/1.0.0".data).length = 4) ∧
    ¬ ∃ sub : String, sub.data.contains '/' = false ∧
        "root/MNE-eegbci-data/files/eegmmidb/1.0.0" =
          "root/" ++ sub ++ "/eegmmidb/1.0.0" := by
  refine ⟨by decide, by decide, ?_⟩
  rintro ⟨sub, hns, heq⟩
  have hdata := congrArg String.data heq
  rw [data_append, data_append] at hdata
  have hfix : ("root/MNE-eegbci-data/files/eegmmidb/1.0.0").data =
      ("root/".data ++ ("MNE-eegbci-data/files").data) ++
        ("/eegmmidb/1.0.0").data := by decide
  rw [hfix] at hdata
  have h1 := List.append_cancel_right hdata
  have h2 := List.append_cancel_left h1
  have hsub : sub = "MNE-eegbci-data/files" := str_ext h2.symm
  rw [hsub] at hns
  exact absurd hns (by decide)

/-- C4 (amended): for every validated base URL the cache directory appends
four path segments under the resolved storage path: the fixed folder
`MNE-eegbci-data`, then the three regex groups — the literal `files`, the
dataset name `eegmmidb`, and a version of shape `digits.digits.digits`. -/
theorem cache_dir_segments (path url : String) (g : String × String × String)
    (h : matchEEGMI url = some g) :
    g.1 = "files" ∧ g.2.1 = "eegmmidb" ∧ versionShape g.2.2 ∧
    cacheDir path url =
      some (pjoin (pjoin (pjoin (pjoin path "MNE-eegbci-data") "files")
        "eegmmidb") g.2.2) := by
  obtain ⟨h1, h2, h3⟩ := matchEEGMI_groups url g h
  refine ⟨h1, h2, h3, ?_⟩
  simp [cacheDir, h, basePathOf, h1, h2]

theorem cache_dir_segments_witness :
    versionShape "1.0.0" ∧
    cacheDir "root" EEGMI_URL =
      some (pjoin (pjoin (pjoin (pjoin "root" "MNE-eegbci-data") "files")
        "eegmmidb") "1.0.0") :=
  (fun h => ⟨h.2.2.1, h.2.2.2⟩)
    (cache_dir_segments "root" EEGMI_URL ("files", "eegmmidb", "1.0.0")
      (by decide))

/-- C6: when every per-run fetch succeeds, `load_data` returns the ordered
list of destination paths in 1:1 correspondence with the run list (same
length, same order, duplicates preserved, each following the naming scheme),
and the concrete scenario subject 1, runs `[4, 10, 14]` yields exactly those
three paths in order. -/
theorem load_data_ordered_paths :
    (∀ (netOk : String → Bool) (subject : Nat) (runsL : List Nat)
       (pathArg : Option String) (fu : Bool) (up : Option Bool) (pr : Bool)
       (url : String) (st : St) (g : String × String × String),
      matchEEGMI url = some g →
      (∀ r ∈ runsL, netOk (filePart subject r) = true) →
      (loadData netOk subject (RunsArg.runList runsL) pathArg fu up pr url
        st).2 =
        Except.ok (runsL.map (fun r =>
          pjoin (basePathOf (getPath pathArg st.config) g)
            (filePart subject r)))) ∧
    (loadData (fun _ => true) 1 (RunsArg.runList [4, 10, 14]) (some "root")
      false none false EEGMI_URL ⟨[], none, []⟩).2 =
      Except.ok
        ["root/MNE-eegbci-data/files/eegmmidb/1.0.0/S001/S001R04.edf",
         "root/MNE-eegbci-data/files/eegmmidb/1.0.0/S001/S001R10.edf",
         "root/MNE-eegbci-data/files/eegmmidb/1.0.0/S001/S001R14.edf"] := by
  constructor
  · intro netOk subject runsL pathArg fu up pr url st g hm hnet
    rw [loadData_unfold_some netOk subject (RunsArg.runList runsL) pathArg fu
      up pr url st g hm]
    simp only [normalizeRuns]
    rw [fetchLoop_snd_ok netOk (basePathOf (getPath pathArg st.config) g)
      (getPath pathArg st.config) up pr fu subject runsL
      { st with trace := st.trace ++ [Event.createFetcher] } [] hnet]
    simp
  · rfl

theorem load_data_ordered_paths_witness :
    (loadData (fun _ => true) 1 (RunsArg.runList [4]) (some "root") false
      none false EEGMI_URL ⟨[], none, []⟩).2 =
      Except.ok ([4].map (fun r =>
        pjoin (basePathOf (getPath (some "root") (⟨[], none, []⟩ : St).config)
          ("files", "eegmmidb", "1.0.0")) (filePart 1 r))) :=
  load_data_ordered_paths.1 (fun _ => true) 1 [4] (some "root") false none
    false EEGMI_URL ⟨[], none, []⟩ ("files", "eegmmidb", "1.0.0") (by decide)
    (by intro r _; rfl)

/-- C9: a bare (non-iterable) `runs` argument is wrapped into a one-element
list, so `load_data subject r` is literally the same computation as
`load_data subject [r]`, and on success it returns the one-element path
list. -/
theorem single_run_wrapping :
    (∀ (netOk : String → Bool) (subject r : Nat) (pathArg : Option String)
       (fu : Bool) (up : Option Bool) (pr : Bool) (url : String) (st : St),
      loadData netOk subject (RunsArg.single r) pathArg fu up pr url st =
      loadData netOk subject (RunsArg.runList [r]) pathArg fu up pr url st) ∧
    (∀ (netOk : String → Bool) (subject r : Nat) (pathArg : Option String)
       (fu : Bool) (up : Option Bool) (pr : Bool) (url : String) (st : St)
       (g : String × String × String),
      matchEEGMI url = some g → netOk (filePart subject r) = true →
      (loadData netOk subject (RunsArg.single r) pathArg fu up pr url st).2 =
        Except.ok [pjoin (basePathOf (getPath pathArg st.config) g)
          (filePart subject r)]) := by
  constructor
  · intro netOk subject r pathArg fu up pr url st
    rfl
  · intro netOk subject r pathArg fu up pr url st g hm hn
    rw [loadData_unfold_some netOk subject (RunsArg.single r) pathArg fu up pr
      url st g hm]
    simp only [normalizeRuns]
    rw [fetchLoop_snd_ok netOk (basePathOf (getPath pathArg st.config) g)
      (getPath pathArg st.config) up pr fu subject [r]
      { st with trace := st.trace ++ [Event.createFetcher] } []
      (by intro x hx; rw [List.mem_singleton.mp hx]; exact hn)]
    simp

theorem single_run_wrapping_witness :
    (loadData (fun _ => true) 1 (RunsArg.single 4) (some "root") false none
      false EEGMI_URL ⟨[], none, []⟩).2 =
      Except.ok [pjoin (basePathOf (getPath (some "root")
        (⟨[], none, []⟩ : St).config) ("files", "eegmmidb", "1.0.0"))
        (filePart 1 4)] :=
  single_run_wrapping.2 (fun _ => true) 1 4 (some "root") false none false
    EEGMI_URL ⟨[], none, []⟩ ("files", "eegmmidb", "1.0.0") (by decide) rfl

/-- C5: in a `force_update=True` iteration, an existing destination file is
deleted unconditionally (whatever its validity bit) before the fetch — the
`remove` event precedes the `transfer` event — while a missing destination
triggers no deletion at all. -/
theorem force_update_unconditional_delete (netOk : String → Bool)
    (bp path : String) (up : Option Bool) (pr : Bool) (subject : Nat)
    (st : St) (run : Nat) (hn : netOk (filePart subject run) = true) :
    (isfile st.fs (pjoin bp (filePart subject run)) = true →
      processRun netOk bp path up pr true subject st run =
        ({ st with
             fs := insertFS
               (removeFS st.fs (pjoin bp (filePart subject run)))
               (pjoin bp (filePart subject run)) true,
             config := doPathUpdate path up pr st.config,
             trace := st.trace
               ++ [Event.remove (pjoin bp (filePart subject run))]
               ++ [Event.transfer (filePart subject run)]
               ++ [Event.pathUpdate] },
         some (pjoin bp (filePart subject run)))) ∧
    (isfile st.fs (pjoin bp (filePart subject run)) = false →
      processRun netOk bp path up pr true subject st run =
        ({ st with
             fs := insertFS st.fs (pjoin bp (filePart subject run)) true,
             config := doPathUpdate path up pr st.config,
             trace := st.trace ++ [Event.transfer (filePart subject run)]
               ++ [Event.pathUpdate] },
         some (pjoin bp (filePart subject run)))) := by
  constructor
  · intro hfile
    have hif : (true && isfile st.fs (pjoin bp (filePart subject run)))
        = true := by rw [hfile]; rfl
    simp only [processRun, if_pos hif]
    rw [fetchOne_fetch netOk bp
      { st with fs := removeFS st.fs (pjoin bp (filePart subject run)),
                trace := st.trace
                  ++ [Event.remove (pjoin bp (filePart subject run))] }
      (filePart subject run)
      (by
        show lookupFS (removeFS st.fs (pjoin bp (filePart subject run)))
          (pjoin bp (filePart subject run)) ≠ some true
        rw [lookupFS_remove_self]
        simp) hn]
  · intro hfile
    have hif : ¬((true && isfile st.fs (pjoin bp (filePart subject run)))
        = true) := by rw [hfile]; simp
    simp only [processRun, if_neg hif]
    have hl : lookupFS st.fs (pjoin bp (filePart subject run)) = none := by
      cases hl' : lookupFS st.fs (pjoin bp (filePart subject run)) with
      | none => rfl
      | some b => rw [isfile, hl'] at hfile; simp at hfile
    rw [fetchOne_fetch netOk bp st (filePart subject run)
      (by rw [hl]; simp) hn]

theorem force_update_unconditional_delete_witness :
    isfile [("root/S001/S001R04.edf", true)]
      (pjoin "root" (filePart 1 4)) = true ∧
    processRun (fun _ => true) "root" "rootpath" none false true 1
      ⟨[("root/S001/S001R04.edf", true)], none, []⟩ 4 =
      (⟨[("root/S001/S001R04.edf", true)], none,
        [Event.remove "root/S001/S001R04.edf",
         Event.transfer "S001/S001R04.edf", Event.pathUpdate]⟩,
       some "root/S001/S001R04.edf") :=
  ⟨by decide,
   (force_update_unconditional_delete (fun _ => true) "root" "rootpath" none
     false 1 ⟨[("root/S001/S001R04.edf", true)], none, []⟩ 4 rfl).1
     (by decide)⟩

/-- C7: a second `load_data` call with identical arguments and
`force_update` false performs zero additional network transfers: every
destination is already present and checksum-valid, so each fetch is a no-op
checked before transfer, and the same path list is returned. -/
theorem second_call_no_transfers (netOk : String → Bool) (subject : Nat)
    (runs : RunsArg) (pathArg : Option String) (up : Option Bool) (pr : Bool)
    (url : String) (st0 st1 : St) (ps : List String)
    (h : loadData netOk subject runs pathArg false up pr url st0 =
      (st1, Except.ok ps)) :
    (loadData netOk subject runs pathArg false up pr url st1).2 =
      Except.ok ps ∧
    countTransfers
        ((loadData netOk subject runs pathArg false up pr url st1).1).trace =
      countTransfers st1.trace := by
  cases hm : matchEEGMI url with
  | none =>
    simp only [loadData, hm] at h
    exact absurd (Prod.mk.injEq .. ▸ h).2 (by simp)
  | some g =>
    rw [loadData_unfold_some netOk subject runs pathArg false up pr url st0 g
      hm] at h
    have hshape := fetchLoop_ok_shape netOk
      (basePathOf (getPath pathArg st0.config) g) (getPath pathArg st0.config)
      up pr false subject (normalizeRuns runs)
      { st0 with trace := st0.trace ++ [Event.createFetcher] } [] st1 ps h
    have hvalid := fetchLoop_post_valid netOk
      (basePathOf (getPath pathArg st0.config) g) (getPath pathArg st0.config)
      up pr subject (normalizeRuns runs)
      { st0 with trace := st0.trace ++ [Event.createFetcher] } [] st1 ps h
    have hconf := fetchLoop_config netOk
      (basePathOf (getPath pathArg st0.config) g) (getPath pathArg st0.config)
      up pr false subject (normalizeRuns runs)
      { st0 with trace := st0.trace ++ [Event.createFetcher] } []
    rw [h] at hconf
    simp only at hconf
    have hpath1 : getPath pathArg st1.config = getPath pathArg st0.config := by
      rcases hconf with hc | hc
      · rw [hc]
      · rw [hc]
        cases pathArg with
        | some p => rfl
        | none => rfl
    rw [loadData_unfold_some netOk subject runs pathArg false up pr url st1 g
      hm, hpath1]
    obtain ⟨hok, -, hcnt⟩ := fetchLoop_skip_all netOk
      (basePathOf (getPath pathArg st0.config) g) (getPath pathArg st0.config)
      up pr subject (normalizeRuns runs)
      { st1 with trace := st1.trace ++ [Event.createFetcher] } []
      (fun r hr => hvalid r hr)
    constructor
    · rw [hok, hshape]
    · rw [hcnt]
      show countTransfers (st1.trace ++ [Event.createFetcher]) =
        countTransfers st1.trace
      rw [countTransfers_append]
      have hz : countTransfers [Event.createFetcher] = 0 := rfl
      rw [hz]
      omega

theorem second_call_no_transfers_witness :
    (loadData (fun _ => true) 1 (RunsArg.runList [4]) (some "root") false none
      false EEGMI_URL
      ⟨[("root/MNE-eegbci-data/files/eegmmidb/1.0.0/S001/S001R04.edf", true)],
       none,
       [Event.createFetcher, Event.transfer "S001/S001R04.edf",
        Event.pathUpdate]⟩).2 =
      Except.ok
        ["root/MNE-eegbci-data/files/eegmmidb/1.0.0/S001/S001R04.edf"] ∧
    countTransfers
        ((loadData (fun _ => true) 1 (RunsArg.runList [4]) (some "root") false
          none false EEGMI_URL
          ⟨[("root/MNE-eegbci-data/files/eegmmidb/1.0.0/S001/S001R04.edf",
             true)],
           none,
           [Event.createFetcher, Event.transfer "S001/S001R04.edf",
            Event.pathUpdate]⟩).1).trace =
      countTransfers
        [Event.createFetcher, Event.transfer "S001/S001R04.edf",
         Event.pathUpdate] :=
  second_call_no_transfers (fun _ => true) 1 (RunsArg.runList [4])
    (some "root") none false EEGMI_URL ⟨[], none, []⟩
    ⟨[("root/MNE-eegbci-data/files/eegmmidb/1.0.0/S001/S001R04.edf", true)],
     none,
     [Event.createFetcher, Event.transfer "S001/S001R04.edf",
      Event.pathUpdate]⟩
    ["root/MNE-eegbci-data/files/eegmmidb/1.0.0/S001/S001R04.edf"] (by rfl)

/-- C8: on a successful call the path-persistence step runs exactly once per
run — the trace gains one `pathUpdate` per run; each successful iteration
ends with a `pathUpdate` event and sets the configuration through
`doPathUpdate path update_path`; and `doPathUpdate` leaves the configuration
store unchanged when the path is already persisted or persistence was not
requested. -/
theorem path_update_each_run :
    (∀ (netOk : String → Bool) (subject : Nat) (runs : RunsArg)
       (pathArg : Option String) (fu : Bool) (up : Option Bool) (pr : Bool)
       (url : String) (st st' : St) (ps : List String),
      loadData netOk subject runs pathArg fu up pr url st =
        (st', Except.ok ps) →
      countPathUpdates st'.trace =
        countPathUpdates st.trace + (normalizeRuns runs).length) ∧
    (∀ (netOk : String → Bool) (bp path : String) (up : Option Bool)
       (pr : Bool) (fu : Bool) (subject : Nat) (st : St) (run : Nat)
       (st2 : St) (p : String),
      processRun netOk bp path up pr fu subject st run = (st2, some p) →
      st2.config = doPathUpdate path up pr st.config ∧
      ∃ mid : List Event, st2.trace = st.trace ++ mid ++ [Event.pathUpdate] ∧
        ∀ e ∈ mid, isPathUpdateEv e = false) ∧
    (∀ (path : String) (up : Option Bool) (pr : Bool)
       (config : Option String),
      config = some path ∨ up = some false →
      doPathUpdate path up pr config = config) := by
  refine ⟨?_, ?_, ?_⟩
  · intro netOk subject runs pathArg fu up pr url st st' ps h
    cases hm : matchEEGMI url with
    | none =>
      simp only [loadData, hm] at h
      exact absurd (Prod.mk.injEq .. ▸ h).2 (by simp)
    | some g =>
      rw [loadData_unfold_some netOk subject runs pathArg fu up pr url st g
        hm] at h
      have := fetchLoop_countPU netOk
        (basePathOf (getPath pathArg st.config) g) (getPath pathArg st.config)
        up pr fu subject (normalizeRuns runs)
        { st with trace := st.trace ++ [Event.createFetcher] } [] st' ps h
      rw [this]
      show countPathUpdates (st.trace ++ [Event.createFetcher]) +
          (normalizeRuns runs).length =
        countPathUpdates st.trace + (normalizeRuns runs).length
      rw [countPathUpdates_append]
      have hz : countPathUpdates [Event.createFetcher] = 0 := rfl
      rw [hz]
      omega
  · intro netOk bp path up pr fu subject st run st2 p h
    obtain ⟨-, h2, h3⟩ :=
      processRun_ok_anatomy netOk bp path up pr fu subject st run st2 p h
    exact ⟨h2, h3⟩
  · intro path up pr config h
    rcases h with h | h
    · subst h
      rcases up with _ | b
      · by_cases hp : pr
        · simp [doPathUpdate, hp]
        · simp [doPathUpdate, hp]
      · cases b
        · rfl
        · rfl
    · subst h
      rfl

theorem path_update_each_run_witness :
    doPathUpdate "root" (some false) false (some "x") = some "x" :=
  path_update_each_run.2.2 "root" (some false) false (some "x") (Or.inr rfl)

end EEGBCI
